import Mathlib

/-!
Shallow embedding of the OBF bloom-filter library
(`src/obf/basic_bloom_filter.h` and `src/obf/ordinal_bloom_filter.h`)
together with theorems settling the specification claims.

Modelling conventions:
* `std::uint64_t` arithmetic is `Nat` with an explicit `% 2 ^ 64` where the
  source can wrap (the `hash_a + n * hash_b` combination in `hash_at_n`).
* `std::vector<bool>` / `std::vector<std::uint8_t>` are `List Bool` /
  `List Nat`; the `uint8_t` cast in `OrdinalBloomFilter::add` is an explicit
  `% 256`, and the cell-width invariant (every stored cell `< 256`) is part of
  the well-formedness predicate.
* The external 128-bit hash (`MurmurHash3_x64_128`, called with fixed seed 0
  on the raw bytes of the element) is an external collaborator: an element
  enters the filters only through its two 64-bit hash halves, so an element is
  modelled by that pair of halves (`Elem`).  Quantifying over all pairs covers
  every possible element/hash combination.
* The constructors' floating-point sizing computation (IEEE `double`
  `std::log` / `std::ceil` / `std::round`) has no faithful shallow embedding;
  it is abstracted as a `sizing` function parameter `ℚ → Nat → Nat × Nat`,
  which in particular captures that the two derived scalars are a pure
  function of `(false_positive, capacity)`.  The rate itself is a rational.
* Exceptions (`throw std::range_error`) are `Except FilterError`.
-/

namespace obf

/-- An element value as the filters observe it: the two 64-bit halves
`hash_a`, `hash_b` of `MurmurHash3_x64_128(&elem, sizeof(T), 0, hash_val)`.
Elements are never stored or compared directly by the source, only hashed,
so this pair is the whole interface of an element. -/
structure Elem where
  hashA : Nat
  hashB : Nat
deriving DecidableEq

/-- The constructor's error: `throw std::range_error("false positive is invalie.")`
when the rate is outside the open interval (0, 1). -/
inductive FilterError where
  | invalidParameter
deriving DecidableEq

/-- State of `obf::BasicBloomFilter<T>`: the `std::vector<bool> _bits` and the
two `size_type` scalars. -/
structure BasicBloomFilter where
  _bits : List Bool
  _bit_array_size : Nat
  _hash_func_num : Nat
deriving DecidableEq

/-- State of `obf::OrdinalBloomFilter<T>`: the `std::vector<std::uint8_t> _bits`
and the two `size_type` scalars.  Cells are `Nat`s kept `< 256` by `WF`. -/
structure OrdinalBloomFilter where
  _bits : List Nat
  _bit_array_size : Nat
  _hash_func_num : Nat
deriving DecidableEq

/-- The loop body of `BasicBloomFilter::add` for one round `i`, with `g i` the
index `hash_at_n(&elem, i)`: `_bits[hash_val] = true`. -/
def basicStep (g : Nat → Nat) (bs : List Bool) (i : Nat) : List Bool :=
  bs.set (g i) true

/-- The loop body of `OrdinalBloomFilter::add` for one round `i`, with `g i`
the index `hash_at_n(&elem, i)`:
`if (_bits[hash_val] < i) _bits[hash_val] = static_cast<std::uint8_t>(i)`. -/
def ordinalStep (g : Nat → Nat) (bs : List Nat) (i : Nat) : List Nat :=
  if bs.getD (g i) 0 < i then bs.set (g i) (i % 256) else bs

namespace BasicBloomFilter

/-- `BasicBloomFilter::hash_at_n`: `(hash_a + n * hash_b) % _bit_array_size`,
where the sum and product wrap in `std::uint64_t`. -/
def hash_at_n (F : BasicBloomFilter) (e : Elem) (n : Nat) : Nat :=
  ((e.hashA + n * e.hashB) % 2 ^ 64) % F._bit_array_size

/-- `BasicBloomFilter::clear`: reassigns `_bits` to a fresh all-false vector of
length `_bit_array_size`. -/
def clear (F : BasicBloomFilter) : BasicBloomFilter :=
  { F with _bits := List.replicate F._bit_array_size false }

/-- `BasicBloomFilter::add`: for `i = 0, ..., _hash_func_num - 1` set
`_bits[hash_at_n(&elem, i)] = true`. -/
def add (F : BasicBloomFilter) (e : Elem) : BasicBloomFilter :=
  { F with
    _bits := (List.range F._hash_func_num).foldl (basicStep (F.hash_at_n e)) F._bits }

/-- `BasicBloomFilter::contains`: return false as soon as one probed bit is
not true, and true after all `_hash_func_num` rounds pass. -/
def contains (F : BasicBloomFilter) (e : Elem) : Bool :=
  (List.range F._hash_func_num).all fun i => F._bits.getD (F.hash_at_n e i) false

/-- `BasicBloomFilter::swap`: exchange `_bits`, `_bit_array_size` and
`_hash_func_num` field by field; the pair is (new `*this`, new `rhs`). -/
def swap (F rhs : BasicBloomFilter) : BasicBloomFilter × BasicBloomFilter :=
  (⟨rhs._bits, rhs._bit_array_size, rhs._hash_func_num⟩,
   ⟨F._bits, F._bit_array_size, F._hash_func_num⟩)

/-- The move constructor `BasicBloomFilter(BasicBloomFilter&& rhs)`: the new
filter takes `rhs`'s vector and scalars; `rhs` is left with a moved-from
(empty) vector and both scalars zeroed.  The pair is (destination, source
after the move). -/
def moveConstruct (rhs : BasicBloomFilter) : BasicBloomFilter × BasicBloomFilter :=
  (⟨rhs._bits, rhs._bit_array_size, rhs._hash_func_num⟩, ⟨[], 0, 0⟩)

/-- A sequence of `add` calls, in list order. -/
def addAll (F : BasicBloomFilter) (es : List Elem) : BasicBloomFilter :=
  es.foldl add F

/-- What construction guarantees about a basic filter's state, floating-point
sizing aside: the vector has length `_bit_array_size`, and that length is
positive (the `ceil` of the strictly positive sizing expression). -/
def WF (F : BasicBloomFilter) : Prop :=
  F._bits.length = F._bit_array_size ∧ 1 ≤ F._bit_array_size

instance (F : BasicBloomFilter) : Decidable F.WF :=
  inferInstanceAs (Decidable (F._bits.length = F._bit_array_size ∧ 1 ≤ F._bit_array_size))

end BasicBloomFilter

namespace OrdinalBloomFilter

/-- `OrdinalBloomFilter::hash_at_n`: identical shape to the basic variant. -/
def hash_at_n (F : OrdinalBloomFilter) (e : Elem) (n : Nat) : Nat :=
  ((e.hashA + n * e.hashB) % 2 ^ 64) % F._bit_array_size

/-- `OrdinalBloomFilter::clear`: reassigns `_bits` to a fresh all-zero vector
of length `_bit_array_size`. -/
def clear (F : OrdinalBloomFilter) : OrdinalBloomFilter :=
  { F with _bits := List.replicate F._bit_array_size 0 }

/-- `OrdinalBloomFilter::add`: for `i = 1, ..., _hash_func_num`, if
`_bits[hash_at_n(&elem, i)] < i` then store `static_cast<std::uint8_t>(i)`,
i.e. `i % 256`, there. -/
def add (F : OrdinalBloomFilter) (e : Elem) : OrdinalBloomFilter :=
  { F with
    _bits := (List.range' 1 F._hash_func_num).foldl (ordinalStep (F.hash_at_n e)) F._bits }

/-- `OrdinalBloomFilter::contains`: return false as soon as
`_bits[hash_at_n(&elem, i)] < i` for some round `i` in `1, ..., _hash_func_num`,
and true after all rounds pass. -/
def contains (F : OrdinalBloomFilter) (e : Elem) : Bool :=
  (List.range' 1 F._hash_func_num).all fun i =>
    !decide (F._bits.getD (F.hash_at_n e i) 0 < i)

/-- `OrdinalBloomFilter::swap`: exchange the three fields; the pair is
(new `*this`, new `rhs`). -/
def swap (F rhs : OrdinalBloomFilter) : OrdinalBloomFilter × OrdinalBloomFilter :=
  (⟨rhs._bits, rhs._bit_array_size, rhs._hash_func_num⟩,
   ⟨F._bits, F._bit_array_size, F._hash_func_num⟩)

/-- The move constructor `OrdinalBloomFilter(OrdinalBloomFilter&& rhs)`. -/
def moveConstruct (rhs : OrdinalBloomFilter) : OrdinalBloomFilter × OrdinalBloomFilter :=
  (⟨rhs._bits, rhs._bit_array_size, rhs._hash_func_num⟩, ⟨[], 0, 0⟩)

/-- A sequence of `add` calls, in list order. -/
def addAll (F : OrdinalBloomFilter) (es : List Elem) : OrdinalBloomFilter :=
  es.foldl add F

/-- What construction guarantees about an ordinal filter's state: vector
length equals `_bit_array_size`, that length is positive, and every stored
cell fits in `std::uint8_t`. -/
def WF (F : OrdinalBloomFilter) : Prop :=
  F._bits.length = F._bit_array_size ∧ 1 ≤ F._bit_array_size ∧ ∀ c ∈ F._bits, c < 256

instance (F : OrdinalBloomFilter) : Decidable F.WF :=
  inferInstanceAs (Decidable (F._bits.length = F._bit_array_size ∧
    1 ≤ F._bit_array_size ∧ ∀ c ∈ F._bits, c < 256))

end OrdinalBloomFilter

/-- The constructor `BasicBloomFilter(double false_positive, size_type capacity)`:
reject `false_positive <= 0 || false_positive >= 1` with the range error before
anything is allocated, otherwise derive the two scalars and allocate the zeroed
vector.  The `double` sizing arithmetic of the accepted branch is abstracted as
the pure function `sizing` (see the module docstring). -/
def mkBasic (sizing : ℚ → Nat → Nat × Nat) (false_positive : ℚ) (capacity : Nat) :
    Except FilterError BasicBloomFilter :=
  if false_positive ≤ 0 ∨ 1 ≤ false_positive then
    .error .invalidParameter
  else
    .ok ⟨List.replicate (sizing false_positive capacity).1 false,
         (sizing false_positive capacity).1,
         (sizing false_positive capacity).2⟩

/-- The constructor `OrdinalBloomFilter(double false_positive, size_type capacity)`:
same guard and shape as the basic variant, with a zeroed byte vector. -/
def mkOrdinal (sizing : ℚ → Nat → Nat × Nat) (false_positive : ℚ) (capacity : Nat) :
    Except FilterError OrdinalBloomFilter :=
  if false_positive ≤ 0 ∨ 1 ≤ false_positive then
    .error .invalidParameter
  else
    .ok ⟨List.replicate (sizing false_positive capacity).1 0,
         (sizing false_positive capacity).1,
         (sizing false_positive capacity).2⟩

/-! Helper lemmas about `List.set` / `List.getD`. -/

lemma getD_set_self {α : Type} (l : List α) (i : Nat) (a d : α) (h : i < l.length) :
    (l.set i a).getD i d = a := by
  induction l generalizing i with
  | nil => simp at h
  | cons x xs ih =>
    cases i with
    | zero => rfl
    | succ n => simpa [List.getD] using ih n (by simpa using h)

lemma getD_set_ne {α : Type} (l : List α) (i j : Nat) (a d : α) (h : j ≠ i) :
    (l.set i a).getD j d = l.getD j d := by
  induction l generalizing i j with
  | nil => rfl
  | cons x xs ih =>
    cases i with
    | zero =>
      cases j with
      | zero => exact absurd rfl h
      | succ m => rfl
    | succ n =>
      cases j with
      | zero => rfl
      | succ m => simpa [List.getD] using ih n m (fun hc => h (by simpa using hc))

lemma getD_replicate {α : Type} (n j : Nat) (a : α) :
    (List.replicate n a).getD j a = a := by
  induction n generalizing j with
  | zero => rfl
  | succ m ih =>
    cases j with
    | zero => rfl
    | succ i => exact ih i

/-! Behaviour of the `add` loop of `BasicBloomFilter`, as a fold of
`basicStep` over the round list. -/

lemma basicFold_length (rounds : List Nat) (g : Nat → Nat) (bs : List Bool) :
    (rounds.foldl (basicStep g) bs).length = bs.length := by
  induction rounds generalizing bs with
  | nil => rfl
  | cons i is ih => simp [List.foldl_cons, ih, basicStep, List.length_set]

lemma basicStep_keeps_true (g : Nat → Nat) (bs : List Bool) (i j : Nat)
    (h : bs.getD j false = true) : (basicStep g bs i).getD j false = true := by
  unfold basicStep
  rcases eq_or_ne j (g i) with rfl | hne
  · by_cases hl : g i < bs.length
    · rw [getD_set_self _ _ _ _ hl]
    · rw [List.set_eq_of_length_le (Nat.le_of_not_lt hl)]
      exact h
  · rw [getD_set_ne _ _ _ _ _ hne]
    exact h

lemma basicFold_keeps_true (rounds : List Nat) (g : Nat → Nat) (j : Nat) :
    ∀ bs : List Bool, bs.getD j false = true →
      (rounds.foldl (basicStep g) bs).getD j false = true := by
  induction rounds with
  | nil => exact fun bs h => h
  | cons i is ih => exact fun bs h => ih (basicStep g bs i) (basicStep_keeps_true g bs i j h)

lemma basicFold_sets (rounds : List Nat) (g : Nat → Nat) (i : Nat) :
    ∀ bs : List Bool, i ∈ rounds → g i < bs.length →
      (rounds.foldl (basicStep g) bs).getD (g i) false = true := by
  induction rounds with
  | nil => intro bs hmem _; cases hmem
  | cons x xs ih =>
    intro bs hmem hlt
    rcases List.mem_cons.1 hmem with rfl | hx
    · refine basicFold_keeps_true xs g (g i) (basicStep g bs i) ?_
      exact getD_set_self bs (g i) true false hlt
    · exact ih (basicStep g bs x) hx (by simpa [basicStep, List.length_set] using hlt)

/-! Behaviour of the `add` loop of `OrdinalBloomFilter`, as a fold of
`ordinalStep` over the round list. -/

lemma ordinalStep_eq (g : Nat → Nat) (bs : List Nat) (i : Nat) :
    ordinalStep g bs i = if bs.getD (g i) 0 < i then bs.set (g i) (i % 256) else bs :=
  rfl

lemma ordinalStep_length (g : Nat → Nat) (bs : List Nat) (i : Nat) :
    (ordinalStep g bs i).length = bs.length := by
  unfold ordinalStep
  split <;> simp [List.length_set]

lemma ordinalFold_length (rounds : List Nat) (g : Nat → Nat) (bs : List Nat) :
    (rounds.foldl (ordinalStep g) bs).length = bs.length := by
  induction rounds generalizing bs with
  | nil => rfl
  | cons i is ih => simp [List.foldl_cons, ih, ordinalStep_length]

lemma ordinalStep_mono (g : Nat → Nat) (bs : List Nat) (i j : Nat) (hi : i ≤ 255) :
    bs.getD j 0 ≤ (ordinalStep g bs i).getD j 0 := by
  unfold ordinalStep
  split
  · rcases eq_or_ne j (g i) with rfl | hne
    · by_cases hl : g i < bs.length
      · rw [getD_set_self _ _ _ _ hl, Nat.mod_eq_of_lt (by omega)]
        omega
      · rw [List.set_eq_of_length_le (Nat.le_of_not_lt hl)]
    · rw [getD_set_ne _ _ _ _ _ hne]
  · exact Nat.le_refl _

lemma ordinalFold_mono (rounds : List Nat) (g : Nat → Nat) (j : Nat) :
    ∀ bs : List Nat, (∀ i ∈ rounds, i ≤ 255) →
      bs.getD j 0 ≤ (rounds.foldl (ordinalStep g) bs).getD j 0 := by
  induction rounds with
  | nil => exact fun bs _ => Nat.le_refl _
  | cons i is ih =>
    intro bs hle
    refine Nat.le_trans (ordinalStep_mono g bs i j (hle i (List.mem_cons_self i is))) ?_
    exact ih (ordinalStep g bs i) fun x hx => hle x (List.mem_cons_of_mem i hx)

lemma ordinalStep_reaches (g : Nat → Nat) (bs : List Nat) (i : Nat) (hi : i ≤ 255)
    (hlt : g i < bs.length) : i ≤ (ordinalStep g bs i).getD (g i) 0 := by
  unfold ordinalStep
  split
  · rw [getD_set_self _ _ _ _ hlt, Nat.mod_eq_of_lt (by omega)]
  · omega

lemma ordinalFold_reaches (rounds : List Nat) (g : Nat → Nat) (i : Nat) :
    ∀ bs : List Nat, i ∈ rounds → (∀ x ∈ rounds, x ≤ 255) → g i < bs.length →
      i ≤ (rounds.foldl (ordinalStep g) bs).getD (g i) 0 := by
  induction rounds with
  | nil => intro bs hmem _ _; cases hmem
  | cons x xs ih =>
    intro bs hmem hle hlt
    rcases List.mem_cons.1 hmem with rfl | hx
    · refine Nat.le_trans
        (ordinalStep_reaches g bs i (hle i (List.mem_cons_self i xs)) hlt) ?_
      exact ordinalFold_mono xs g (g i) (ordinalStep g bs i)
        fun y hy => hle y (List.mem_cons_of_mem i hy)
    · exact ih (ordinalStep g bs x) hx
        (fun y hy => hle y (List.mem_cons_of_mem x hy))
        (by simpa [ordinalStep_length] using hlt)

lemma ordinalStep_bounded (g : Nat → Nat) (bs : List Nat) (i : Nat)
    (hb : ∀ c ∈ bs, c < 256) : ∀ c ∈ ordinalStep g bs i, c < 256 := by
  unfold ordinalStep
  split
  · intro c hc
    rcases List.mem_or_eq_of_mem_set hc with hc' | rfl
    · exact hb c hc'
    · exact Nat.mod_lt _ (by omega)
  · exact hb

lemma ordinalFold_bounded (rounds : List Nat) (g : Nat → Nat) :
    ∀ bs : List Nat, (∀ c ∈ bs, c < 256) →
      ∀ c ∈ rounds.foldl (ordinalStep g) bs, c < 256 := by
  induction rounds with
  | nil => exact fun bs hb => hb
  | cons i is ih => exact fun bs hb => ih (ordinalStep g bs i) (ordinalStep_bounded g bs i hb)

lemma range'_snoc (s n : Nat) : List.range' s (n + 1) = List.range' s n ++ [s + n] := by
  have h := List.range'_append s n 1 1
  simp only [Nat.one_mul, Nat.mul_one] at h
  rw [Nat.add_comm n 1, ← h]
  rfl

lemma range'_split (s m n : Nat) :
    List.range' s m ++ List.range' (s + m) n = List.range' s (m + n) := by
  have h := List.range'_append s m n 1
  simp only [Nat.one_mul, Nat.mul_one] at h
  rw [Nat.add_comm m n]
  exact h

/-- Closed form of the ordinal `add` loop when every round hashes to cell 0
(as happens for an element whose two hash halves are both 0, or whenever
`_bit_array_size = 1`): after rounds `1, ..., k` the head cell holds
`k % 256` — the `std::uint8_t` cast wraps it at every multiple of 256. -/
lemma ordinalFold_all_head (rest : List Nat) (k : Nat) :
    (List.range' 1 k).foldl (ordinalStep fun _ => 0) (0 :: rest) = (k % 256) :: rest := by
  induction k with
  | zero => rfl
  | succ n ih =>
    rw [range'_snoc, List.foldl_append, ih, List.foldl_cons, List.foldl_nil]
    unfold ordinalStep
    have hlt : ((n % 256 :: rest).getD 0 0) < 1 + n :=
      Nat.lt_of_le_of_lt (Nat.mod_le n 256) (by omega)
    rw [if_pos hlt]
    show (1 + n) % 256 :: rest = (n + 1) % 256 :: rest
    rw [Nat.add_comm 1 n]

lemma ordinalStep_untouched (g : Nat → Nat) (bs : List Nat) (i j : Nat) (h : g i ≠ j) :
    (ordinalStep g bs i).getD j 0 = bs.getD j 0 := by
  unfold ordinalStep
  split
  · exact getD_set_ne _ _ _ _ _ (Ne.symm h)
  · rfl

lemma ordinalFold_untouched (rounds : List Nat) (g : Nat → Nat) (j : Nat) :
    ∀ bs : List Nat, (∀ i ∈ rounds, g i ≠ j) →
      (rounds.foldl (ordinalStep g) bs).getD j 0 = bs.getD j 0 := by
  induction rounds with
  | nil => exact fun bs _ => rfl
  | cons i is ih =>
    intro bs h
    rw [List.foldl_cons, ih (ordinalStep g bs i) fun x hx => h x (List.mem_cons_of_mem i hx)]
    exact ordinalStep_untouched g bs i j (h i (List.mem_cons_self i is))

/-! Filter-level facts about `BasicBloomFilter`. -/

namespace BasicBloomFilter

lemma add_scalars (F : BasicBloomFilter) (e : Elem) :
    (F.add e)._bit_array_size = F._bit_array_size ∧
      (F.add e)._hash_func_num = F._hash_func_num :=
  ⟨rfl, rfl⟩

lemma addAll_scalars (F : BasicBloomFilter) (es : List Elem) :
    (F.addAll es)._bit_array_size = F._bit_array_size ∧
      (F.addAll es)._hash_func_num = F._hash_func_num := by
  induction es generalizing F with
  | nil => exact ⟨rfl, rfl⟩
  | cons x xs ih => exact ih (F.add x)

lemma hash_congr (F G : BasicBloomFilter) (e : Elem) (n : Nat)
    (h : F._bit_array_size = G._bit_array_size) : F.hash_at_n e n = G.hash_at_n e n := by
  unfold hash_at_n
  rw [h]

lemma hash_lt (F : BasicBloomFilter) (e : Elem) (n : Nat) (h : 1 ≤ F._bit_array_size) :
    F.hash_at_n e n < F._bit_array_size :=
  Nat.mod_lt _ (by omega)

lemma add_WF (F : BasicBloomFilter) (e : Elem) (hF : F.WF) : (F.add e).WF := by
  refine ⟨?_, hF.2⟩
  show ((List.range F._hash_func_num).foldl (basicStep (F.hash_at_n e)) F._bits).length = _
  rw [basicFold_length]
  exact hF.1

lemma addAll_WF (F : BasicBloomFilter) (es : List Elem) (hF : F.WF) : (F.addAll es).WF := by
  induction es generalizing F with
  | nil => exact hF
  | cons x xs ih => exact ih (F.add x) (add_WF F x hF)

lemma add_keeps_true (F : BasicBloomFilter) (x : Elem) (j : Nat)
    (h : F._bits.getD j false = true) : (F.add x)._bits.getD j false = true :=
  basicFold_keeps_true (List.range F._hash_func_num) (F.hash_at_n x) j F._bits h

lemma addAll_keeps_true (F : BasicBloomFilter) (es : List Elem) (j : Nat)
    (h : F._bits.getD j false = true) : (F.addAll es)._bits.getD j false = true := by
  induction es generalizing F with
  | nil => exact h
  | cons x xs ih => exact ih (F.add x) (add_keeps_true F x j h)

lemma add_probes (F : BasicBloomFilter) (e : Elem) (hF : F.WF) (i : Nat)
    (hi : i < F._hash_func_num) :
    (F.add e)._bits.getD (F.hash_at_n e i) false = true :=
  basicFold_sets (List.range F._hash_func_num) (F.hash_at_n e) i F._bits
    (List.mem_range.2 hi) (by rw [hF.1]; exact hash_lt F e i hF.2)

lemma contains_true_of (F : BasicBloomFilter) (e : Elem)
    (h : ∀ i, i < F._hash_func_num → F._bits.getD (F.hash_at_n e i) false = true) :
    F.contains e = true := by
  unfold contains
  exact List.all_eq_true.2 fun i hi => h i (List.mem_range.1 hi)

lemma contains_true_elim (F : BasicBloomFilter) (e : Elem) (h : F.contains e = true)
    (i : Nat) (hi : i < F._hash_func_num) :
    F._bits.getD (F.hash_at_n e i) false = true :=
  List.all_eq_true.1 h i (List.mem_range.2 hi)

end BasicBloomFilter

/-! Filter-level facts about `OrdinalBloomFilter`. -/

namespace OrdinalBloomFilter

lemma cell_lt_256 (bs : List Nat) (hb : ∀ c ∈ bs, c < 256) (j : Nat) : bs.getD j 0 < 256 := by
  rw [List.getD_eq_getElem?_getD]
  cases h : bs[j]? with
  | none => simp
  | some c => simpa using hb c (List.getElem?_mem h)

lemma mem_rounds (k i : Nat) : i ∈ List.range' 1 k ↔ 1 ≤ i ∧ i ≤ k := by
  rw [List.mem_range'_1]
  omega

lemma rounds_le_255 (k : Nat) (hk : k ≤ 255) : ∀ i ∈ List.range' 1 k, i ≤ 255 :=
  fun i hi => Nat.le_trans ((mem_rounds k i).1 hi).2 hk

lemma add_scalars_ord (F : OrdinalBloomFilter) (e : Elem) :
    (F.add e)._bit_array_size = F._bit_array_size ∧
      (F.add e)._hash_func_num = F._hash_func_num :=
  ⟨rfl, rfl⟩

lemma add_bits (F : OrdinalBloomFilter) (e : Elem) :
    (F.add e)._bits
      = (List.range' 1 F._hash_func_num).foldl (ordinalStep (F.hash_at_n e)) F._bits :=
  rfl

lemma addAll_scalars_ord (F : OrdinalBloomFilter) (es : List Elem) :
    (F.addAll es)._bit_array_size = F._bit_array_size ∧
      (F.addAll es)._hash_func_num = F._hash_func_num := by
  induction es generalizing F with
  | nil => exact ⟨rfl, rfl⟩
  | cons x xs ih => exact ih (F.add x)

lemma hash_congr_ord (F G : OrdinalBloomFilter) (e : Elem) (n : Nat)
    (h : F._bit_array_size = G._bit_array_size) : F.hash_at_n e n = G.hash_at_n e n := by
  unfold hash_at_n
  rw [h]

lemma hash_lt_ord (F : OrdinalBloomFilter) (e : Elem) (n : Nat) (h : 1 ≤ F._bit_array_size) :
    F.hash_at_n e n < F._bit_array_size :=
  Nat.mod_lt _ (by omega)

lemma add_WF_ord (F : OrdinalBloomFilter) (e : Elem) (hF : F.WF) : (F.add e).WF := by
  refine ⟨?_, hF.2.1, ?_⟩
  · show ((List.range' 1 F._hash_func_num).foldl (ordinalStep (F.hash_at_n e)) F._bits).length = _
    rw [ordinalFold_length]
    exact hF.1
  · exact ordinalFold_bounded (List.range' 1 F._hash_func_num) (F.hash_at_n e) F._bits hF.2.2

lemma addAll_WF_ord (F : OrdinalBloomFilter) (es : List Elem) (hF : F.WF) : (F.addAll es).WF := by
  induction es generalizing F with
  | nil => exact hF
  | cons x xs ih => exact ih (F.add x) (add_WF_ord F x hF)

lemma add_cell_mono (F : OrdinalBloomFilter) (x : Elem) (j : Nat)
    (hk : F._hash_func_num ≤ 255) :
    F._bits.getD j 0 ≤ (F.add x)._bits.getD j 0 :=
  ordinalFold_mono (List.range' 1 F._hash_func_num) (F.hash_at_n x) j F._bits
    (rounds_le_255 _ hk)

lemma addAll_cell_mono (F : OrdinalBloomFilter) (es : List Elem) (j : Nat)
    (hk : F._hash_func_num ≤ 255) :
    F._bits.getD j 0 ≤ (F.addAll es)._bits.getD j 0 := by
  induction es generalizing F with
  | nil => exact Nat.le_refl _
  | cons x xs ih =>
    refine Nat.le_trans (add_cell_mono F x j hk) (ih (F.add x) ?_)
    exact hk

lemma add_probes_ord (F : OrdinalBloomFilter) (e : Elem) (hF : F.WF)
    (hk : F._hash_func_num ≤ 255) (i : Nat) (h1 : 1 ≤ i) (h2 : i ≤ F._hash_func_num) :
    i ≤ (F.add e)._bits.getD (F.hash_at_n e i) 0 :=
  ordinalFold_reaches (List.range' 1 F._hash_func_num) (F.hash_at_n e) i F._bits
    ((mem_rounds _ i).2 ⟨h1, h2⟩) (rounds_le_255 _ hk)
    (by rw [hF.1]; exact hash_lt_ord F e i hF.2.1)

lemma contains_true_of_ord (F : OrdinalBloomFilter) (e : Elem)
    (h : ∀ i, 1 ≤ i → i ≤ F._hash_func_num → i ≤ F._bits.getD (F.hash_at_n e i) 0) :
    F.contains e = true := by
  unfold contains
  refine List.all_eq_true.2 fun i hi => ?_
  have hm := (mem_rounds _ i).1 hi
  simp only [Bool.not_eq_true', decide_eq_false_iff_not, Nat.not_lt]
  exact h i hm.1 hm.2

lemma contains_true_elim_ord (F : OrdinalBloomFilter) (e : Elem) (h : F.contains e = true)
    (i : Nat) (h1 : 1 ≤ i) (h2 : i ≤ F._hash_func_num) :
    i ≤ F._bits.getD (F.hash_at_n e i) 0 := by
  have := List.all_eq_true.1 h i ((mem_rounds _ i).2 ⟨h1, h2⟩)
  simp only [Bool.not_eq_true', decide_eq_false_iff_not, Nat.not_lt] at this
  exact this

/-- A well-formed ordinal filter on which `contains` succeeds for some element
necessarily has at most 255 hash rounds: round 256 would demand a cell value
of at least 256, which no `std::uint8_t` cell can hold. -/
lemma hash_num_le_255_of_contains (F : OrdinalBloomFilter) (e : Elem) (hF : F.WF)
    (h : F.contains e = true) : F._hash_func_num ≤ 255 := by
  by_contra hgt
  have h256 := contains_true_elim_ord F e h 256 (by omega) (by omega)
  have := cell_lt_256 F._bits hF.2.2 (F.hash_at_n e 256)
  omega

end OrdinalBloomFilter

/-! Claim theorems. -/

/-- C1: `BasicBloomFilter` has no false negatives.  For every well-formed
filter state (as produced by construction with a valid rate and positive
capacity) and every element `e`, after `add(e)` — with any other `add` calls
before (`xs`) or after (`ys`) — `contains(e)` returns true. -/
theorem basic_no_false_negatives (F : BasicBloomFilter) (hF : F.WF) (e : Elem)
    (xs ys : List Elem) :
    (((F.addAll xs).add e).addAll ys).contains e = true := by
  have hF1 : (F.addAll xs).WF := BasicBloomFilter.addAll_WF F xs hF
  have hs32 := (BasicBloomFilter.addAll_scalars ((F.addAll xs).add e) ys).1
  have hk32 := (BasicBloomFilter.addAll_scalars ((F.addAll xs).add e) ys).2
  refine BasicBloomFilter.contains_true_of _ e fun i hi => ?_
  have hi1 : i < (F.addAll xs)._hash_func_num := by
    have hk21 : ((F.addAll xs).add e)._hash_func_num = (F.addAll xs)._hash_func_num := rfl
    omega
  have hh : (((F.addAll xs).add e).addAll ys).hash_at_n e i = (F.addAll xs).hash_at_n e i :=
    BasicBloomFilter.hash_congr _ _ e i (by rw [hs32]; rfl)
  rw [hh]
  exact BasicBloomFilter.addAll_keeps_true ((F.addAll xs).add e) ys _
    (BasicBloomFilter.add_probes (F.addAll xs) e hF1 i hi1)

/-- Witness for C1 at a concrete filter, element and surrounding adds. -/
theorem basic_no_false_negatives_witness :
    ((((⟨[false, false, false], 3, 2⟩ : BasicBloomFilter).addAll [⟨1, 2⟩]).add ⟨5, 7⟩).addAll
        [⟨3, 4⟩]).contains ⟨5, 7⟩ = true :=
  basic_no_false_negatives ⟨[false, false, false], 3, 2⟩ (by decide) ⟨5, 7⟩ [⟨1, 2⟩] [⟨3, 4⟩]

/-- C2 as stated is false on the code.  The constructor accepts any rate in
(0, 1); for `false_positive = 1e-80`, `capacity = 1` it derives
`bit_array_size = 384` and `hash_func_num = 266`.  On that state, adding the
element both of whose hash halves are 0 (every round probes cell 0) leaves
cell 0 holding `266 % 256 = 10` because `add` stores
`static_cast<std::uint8_t>(i)`; `contains` of the very same element then fails
at round 11.  A false negative for an added element. -/
theorem ordinal_false_negative_cex :
    ((⟨List.replicate 384 0, 384, 266⟩ : OrdinalBloomFilter).add ⟨0, 0⟩).contains ⟨0, 0⟩
      = false := by
  have hg : (⟨List.replicate 384 0, 384, 266⟩ : OrdinalBloomFilter).hash_at_n ⟨0, 0⟩
      = fun _ => 0 := funext fun i => by simp [OrdinalBloomFilter.hash_at_n]
  have hadd : (⟨List.replicate 384 0, 384, 266⟩ : OrdinalBloomFilter).add ⟨0, 0⟩
      = ⟨10 :: List.replicate 383 0, 384, 266⟩ := by
    show OrdinalBloomFilter.mk
        ((List.range' 1 266).foldl
          (ordinalStep ((⟨List.replicate 384 0, 384, 266⟩ :
            OrdinalBloomFilter).hash_at_n ⟨0, 0⟩))
          (List.replicate 384 0)) 384 266 = _
    rw [hg]
    show OrdinalBloomFilter.mk
        ((List.range' 1 266).foldl (ordinalStep fun _ => 0)
          (0 :: List.replicate 383 0)) 384 266 = _
    rw [ordinalFold_all_head]
  rw [hadd]
  unfold OrdinalBloomFilter.contains
  refine List.all_eq_false.2 ⟨11, (OrdinalBloomFilter.mem_rounds 266 11).2 (by omega), ?_⟩
  decide

/-- C2 amended: the no-false-negative guarantee of `OrdinalBloomFilter` holds
whenever the derived `hash_func_num` fits the `std::uint8_t` cell, i.e. is at
most 255 (every rate not astronomically below `2 ^ (-255)` satisfies this).
Then each round `i` writes exactly `i`, cells never decrease, and `contains(e)`
is true after `add(e)` regardless of other adds before or after. -/
theorem ordinal_no_false_negatives_when_rounds_fit (F : OrdinalBloomFilter) (hF : F.WF)
    (hk : F._hash_func_num ≤ 255) (e : Elem) (xs ys : List Elem) :
    (((F.addAll xs).add e).addAll ys).contains e = true := by
  have hF1 : (F.addAll xs).WF := OrdinalBloomFilter.addAll_WF_ord F xs hF
  have hk1 : (F.addAll xs)._hash_func_num ≤ 255 := by
    rw [(OrdinalBloomFilter.addAll_scalars_ord F xs).2]
    exact hk
  have hs32 := (OrdinalBloomFilter.addAll_scalars_ord ((F.addAll xs).add e) ys).1
  have hk32 := (OrdinalBloomFilter.addAll_scalars_ord ((F.addAll xs).add e) ys).2
  refine OrdinalBloomFilter.contains_true_of_ord _ e fun i h1 h2 => ?_
  have h2' : i ≤ (F.addAll xs)._hash_func_num := by
    have hk21 : ((F.addAll xs).add e)._hash_func_num = (F.addAll xs)._hash_func_num := rfl
    omega
  have hh : (((F.addAll xs).add e).addAll ys).hash_at_n e i = (F.addAll xs).hash_at_n e i :=
    OrdinalBloomFilter.hash_congr_ord _ _ e i (by rw [hs32]; rfl)
  rw [hh]
  refine Nat.le_trans
    (OrdinalBloomFilter.add_probes_ord (F.addAll xs) e hF1 hk1 i h1 h2') ?_
  exact OrdinalBloomFilter.addAll_cell_mono ((F.addAll xs).add e) ys _ hk1

/-- Witness for the amended C2 at a concrete filter, element and adds. -/
theorem ordinal_no_false_negatives_when_rounds_fit_witness :
    ((((⟨[0, 0, 0], 3, 2⟩ : OrdinalBloomFilter).addAll [⟨1, 2⟩]).add ⟨5, 7⟩).addAll
        [⟨3, 4⟩]).contains ⟨5, 7⟩ = true :=
  ordinal_no_false_negatives_when_rounds_fit ⟨[0, 0, 0], 3, 2⟩ (by decide) (by decide)
    ⟨5, 7⟩ [⟨1, 2⟩] [⟨3, 4⟩]

/-- C3 as stated is false on the code.  For `false_positive ≈ 2 ^ (-257)`,
`capacity = 1` the constructor derives `bit_array_size = 371`,
`hash_func_num = 257`.  Adding the element with hash halves (0, 0) drives
cell 0 through rounds 1..257, leaving `257 % 256 = 1` there.  Adding the
element with halves (115, 1) then touches cell 0 exactly once, at round 256
(`(115 + 256) % 371 = 0`), and overwrites the 1 with
`static_cast<std::uint8_t>(256) = 0`: the cell decreases across `add` calls,
and round 256's write is not `max(array[idx], 256)`. -/
theorem ordinal_cell_decrease_cex :
    (((⟨List.replicate 371 0, 371, 257⟩ : OrdinalBloomFilter).add ⟨0, 0⟩).add
        ⟨115, 1⟩)._bits.getD 0 0
      < ((⟨List.replicate 371 0, 371, 257⟩ : OrdinalBloomFilter).add ⟨0, 0⟩)._bits.getD 0 0 := by
  have hg : (⟨List.replicate 371 0, 371, 257⟩ : OrdinalBloomFilter).hash_at_n ⟨0, 0⟩
      = fun _ => 0 := funext fun i => by simp [OrdinalBloomFilter.hash_at_n]
  have hadd : (⟨List.replicate 371 0, 371, 257⟩ : OrdinalBloomFilter).add ⟨0, 0⟩
      = ⟨1 :: List.replicate 370 0, 371, 257⟩ := by
    show OrdinalBloomFilter.mk
        ((List.range' 1 257).foldl
          (ordinalStep ((⟨List.replicate 371 0, 371, 257⟩ :
            OrdinalBloomFilter).hash_at_n ⟨0, 0⟩))
          (List.replicate 371 0)) 371 257 = _
    rw [hg]
    show OrdinalBloomFilter.mk
        ((List.range' 1 257).foldl (ordinalStep fun _ => 0)
          (0 :: List.replicate 370 0)) 371 257 = _
    rw [ordinalFold_all_head]
  rw [hadd]
  have huntouched : ∀ i ∈ List.range' 1 255,
      (⟨1 :: List.replicate 370 0, 371, 257⟩ : OrdinalBloomFilter).hash_at_n ⟨115, 1⟩ i
        ≠ 0 := by
    intro i hi
    have hm := (OrdinalBloomFilter.mem_rounds 255 i).1 hi
    show ((115 + i * 1) % 2 ^ 64) % 371 ≠ 0
    have h64 : 115 + i * 1 < 2 ^ 64 := by
      have : (370 : Nat) < 2 ^ 64 := by norm_num
      omega
    rw [Nat.mod_eq_of_lt h64, Nat.mod_eq_of_lt (by omega)]
    omega
  have hL : ((⟨1 :: List.replicate 370 0, 371, 257⟩ : OrdinalBloomFilter).add
      ⟨115, 1⟩)._bits.getD 0 0 = 0 := by
    rw [OrdinalBloomFilter.add_bits]
    show ((List.range' 1 257).foldl
        (ordinalStep ((⟨1 :: List.replicate 370 0, 371, 257⟩ :
          OrdinalBloomFilter).hash_at_n ⟨115, 1⟩))
        (1 :: List.replicate 370 0)).getD 0 0 = 0
    rw [show (257 : Nat) = 255 + 2 from rfl, ← range'_split 1 255 2, List.foldl_append]
    rw [show List.range' (1 + 255) 2 = [256, 257] from rfl]
    rw [show ∀ (f : List Nat → Nat → List Nat) (b : List Nat),
        List.foldl f b [256, 257] = f (f b 256) 257 from fun f b => rfl]
    rw [ordinalStep_untouched _ _ 257 0 ?g257]
    case g257 =>
      show ((115 + 257 * 1) % 2 ^ 64) % 371 ≠ 0
      norm_num
    have hB1 : ((List.range' 1 255).foldl
        (ordinalStep ((⟨1 :: List.replicate 370 0, 371, 257⟩ :
          OrdinalBloomFilter).hash_at_n ⟨115, 1⟩))
        (1 :: List.replicate 370 0)).getD 0 0 = 1 := by
      rw [ordinalFold_untouched _ _ 0 _ huntouched]
      rfl
    have hBlen : ((List.range' 1 255).foldl
        (ordinalStep ((⟨1 :: List.replicate 370 0, 371, 257⟩ :
          OrdinalBloomFilter).hash_at_n ⟨115, 1⟩))
        (1 :: List.replicate 370 0)).length = 371 := by
      rw [ordinalFold_length, List.length_cons, List.length_replicate]
    have hg256 : (⟨1 :: List.replicate 370 0, 371, 257⟩ :
        OrdinalBloomFilter).hash_at_n ⟨115, 1⟩ 256 = 0 := by
      show ((115 + 256 * 1) % 2 ^ 64) % 371 = 0
      norm_num
    rw [ordinalStep_eq]
    rw [hg256, hB1, if_pos (by omega)]
    rw [show (256 : Nat) % 256 = 0 from rfl]
    refine getD_set_self _ 0 0 0 ?_
    rw [hBlen]
    omega
  rw [hL]
  decide

/-- C3 amended: cells of `OrdinalBloomFilter` are monotone — over any sequence
of `add` calls with any elements no cell's stored value ever decreases —
provided the filter's `hash_func_num` is at most 255, so that the
`std::uint8_t` cast `i % 256` is the identity and every round's update is
`array[idx] = max(array[idx], i)`.  With 256 or more rounds the cast wraps and
a cell can decrease (see the counterexample). -/
theorem ordinal_cells_monotone_when_rounds_fit (F : OrdinalBloomFilter)
    (hk : F._hash_func_num ≤ 255) (es : List Elem) (idx : Nat) :
    F._bits.getD idx 0 ≤ (F.addAll es)._bits.getD idx 0 :=
  OrdinalBloomFilter.addAll_cell_mono F es idx hk

/-- Witness for the amended C3 at a concrete filter and add sequence. -/
theorem ordinal_cells_monotone_when_rounds_fit_witness :
    (⟨[3, 0], 2, 2⟩ : OrdinalBloomFilter)._bits.getD 0 0 ≤
      ((⟨[3, 0], 2, 2⟩ : OrdinalBloomFilter).addAll [⟨0, 1⟩, ⟨4, 2⟩])._bits.getD 0 0 :=
  ordinal_cells_monotone_when_rounds_fit ⟨[3, 0], 2, 2⟩ (by decide) [⟨0, 1⟩, ⟨4, 2⟩] 0

/-- C4: monotonic fullness for both variants.  If `contains(e)` is true, it
stays true after any further `add`.  For the basic variant this is immediate
because bits only ever turn true.  For the ordinal variant, a true `contains`
forces `hash_func_num ≤ 255` (round 256 could never pass a `std::uint8_t`
cell), and below 256 rounds every cell update is a `max`, so cells never
decrease. -/
theorem monotonic_fullness (F : BasicBloomFilter) (G : OrdinalBloomFilter)
    (hF : F.WF) (hG : G.WF) (e x : Elem)
    (hFe : F.contains e = true) (hGe : G.contains e = true) :
    (F.add x).contains e = true ∧ (G.add x).contains e = true := by
  constructor
  · refine BasicBloomFilter.contains_true_of _ e fun i hi => ?_
    have hi' : i < F._hash_func_num := hi
    have hh : (F.add x).hash_at_n e i = F.hash_at_n e i :=
      BasicBloomFilter.hash_congr _ _ e i rfl
    rw [hh]
    exact BasicBloomFilter.add_keeps_true F x _
      (BasicBloomFilter.contains_true_elim F e hFe i hi')
  · have hk : G._hash_func_num ≤ 255 :=
      OrdinalBloomFilter.hash_num_le_255_of_contains G e hG hGe
    refine OrdinalBloomFilter.contains_true_of_ord _ e fun i h1 h2 => ?_
    have h2' : i ≤ G._hash_func_num := h2
    have hh : (G.add x).hash_at_n e i = G.hash_at_n e i :=
      OrdinalBloomFilter.hash_congr_ord _ _ e i rfl
    rw [hh]
    exact Nat.le_trans (OrdinalBloomFilter.contains_true_elim_ord G e hGe i h1 h2')
      (OrdinalBloomFilter.add_cell_mono G x _ hk)

/-- Witness for C4 at concrete filters where `contains` already succeeds. -/
theorem monotonic_fullness_witness :
    ((⟨[true], 1, 1⟩ : BasicBloomFilter).add ⟨2, 3⟩).contains ⟨0, 0⟩ = true ∧
      ((⟨[1], 1, 1⟩ : OrdinalBloomFilter).add ⟨2, 3⟩).contains ⟨0, 0⟩ = true :=
  monotonic_fullness ⟨[true], 1, 1⟩ ⟨[1], 1, 1⟩ (by decide) (by decide) ⟨0, 0⟩ ⟨2, 3⟩
    (by decide) (by decide)

/-- C5 as stated is false on the code.  For `false_positive = 0.99`,
`capacity = 1000` the constructor accepts the rate and derives
`bit_array_size = 21` but `hash_func_num = 0` (`round(21/1000 * ln 2) = 0`).
With zero hash rounds, `contains` is vacuously true for every element, so
after `clear()` the filter does not report false for non-re-added elements. -/
theorem clear_contains_cex :
    mkBasic (fun _ _ => (21, 0)) (99 / 100) 1000
        = .ok ⟨List.replicate 21 false, 21, 0⟩ ∧
      ((⟨List.replicate 21 false, 21, 0⟩ : BasicBloomFilter).clear).contains ⟨0, 0⟩
        = true := by
  constructor
  · unfold mkBasic
    rw [if_neg (by norm_num)]
  · rfl

/-- C5 amended: after `clear()` the filter state equals the freshly
constructed filter with the same `(false_positive, capacity)` — this part
holds unconditionally — and `contains(e)` is false for every element `e` not
subsequently re-added, provided the derived `hash_func_num` is at least 1
(for rates/capacities where it is 0, `contains` is vacuously true for every
element, as the spec itself flags as an open question). -/
theorem clear_resets (sb so : ℚ → Nat → Nat × Nat) (p : ℚ) (cap : Nat)
    (F0 : BasicBloomFilter) (G0 : OrdinalBloomFilter)
    (hF0 : mkBasic sb p cap = .ok F0) (hG0 : mkOrdinal so p cap = .ok G0)
    (xs ys : List Elem) :
    ((F0.addAll xs).clear = F0 ∧ (G0.addAll ys).clear = G0) ∧
      (1 ≤ F0._hash_func_num → ∀ e, ((F0.addAll xs).clear).contains e = false) ∧
      (1 ≤ G0._hash_func_num → ∀ e, ((G0.addAll ys).clear).contains e = false) := by
  unfold mkBasic at hF0
  unfold mkOrdinal at hG0
  by_cases hp : p ≤ 0 ∨ 1 ≤ p
  · rw [if_pos hp] at hF0
    cases hF0
  rw [if_neg hp] at hF0
  rw [if_neg hp] at hG0
  injection hF0 with hF0
  injection hG0 with hG0
  subst hF0
  subst hG0
  refine ⟨⟨?_, ?_⟩, ?_, ?_⟩
  · show BasicBloomFilter.mk
      (List.replicate ((BasicBloomFilter.addAll _ xs)._bit_array_size) false)
      ((BasicBloomFilter.addAll _ xs)._bit_array_size)
      ((BasicBloomFilter.addAll _ xs)._hash_func_num) = _
    rw [(BasicBloomFilter.addAll_scalars _ xs).1, (BasicBloomFilter.addAll_scalars _ xs).2]
  · show OrdinalBloomFilter.mk
      (List.replicate ((OrdinalBloomFilter.addAll _ ys)._bit_array_size) 0)
      ((OrdinalBloomFilter.addAll _ ys)._bit_array_size)
      ((OrdinalBloomFilter.addAll _ ys)._hash_func_num) = _
    rw [(OrdinalBloomFilter.addAll_scalars_ord _ ys).1, (OrdinalBloomFilter.addAll_scalars_ord _ ys).2]
  · intro hk e
    have hk1 : 1 ≤ (sb p cap).2 := hk
    have hkX : (((⟨List.replicate (sb p cap).1 false, (sb p cap).1, (sb p cap).2⟩ :
        BasicBloomFilter).addAll xs).clear)._hash_func_num = (sb p cap).2 :=
      (BasicBloomFilter.addAll_scalars
        ⟨List.replicate (sb p cap).1 false, (sb p cap).1, (sb p cap).2⟩ xs).2
    unfold BasicBloomFilter.contains
    refine List.all_eq_false.2 ⟨0, List.mem_range.2 (by omega), ?_⟩
    have hXbits : (((⟨List.replicate (sb p cap).1 false, (sb p cap).1, (sb p cap).2⟩ :
        BasicBloomFilter).addAll xs).clear)._bits
        = List.replicate (((⟨List.replicate (sb p cap).1 false, (sb p cap).1,
            (sb p cap).2⟩ : BasicBloomFilter).addAll xs)._bit_array_size) false := rfl
    rw [hXbits, getD_replicate]
    simp
  · intro hk e
    have hk1 : 1 ≤ (so p cap).2 := hk
    have hkX : (((⟨List.replicate (so p cap).1 0, (so p cap).1, (so p cap).2⟩ :
        OrdinalBloomFilter).addAll ys).clear)._hash_func_num = (so p cap).2 :=
      (OrdinalBloomFilter.addAll_scalars_ord
        ⟨List.replicate (so p cap).1 0, (so p cap).1, (so p cap).2⟩ ys).2
    unfold OrdinalBloomFilter.contains
    refine List.all_eq_false.2
      ⟨1, (OrdinalBloomFilter.mem_rounds _ 1).2 ⟨Nat.le_refl 1, by omega⟩, ?_⟩
    have hXbits : (((⟨List.replicate (so p cap).1 0, (so p cap).1, (so p cap).2⟩ :
        OrdinalBloomFilter).addAll ys).clear)._bits
        = List.replicate (((⟨List.replicate (so p cap).1 0, (so p cap).1,
            (so p cap).2⟩ : OrdinalBloomFilter).addAll ys)._bit_array_size) 0 := rfl
    rw [hXbits, getD_replicate]
    simp

/-- Witness for the amended C5 at a concrete sizing, rate and add sequence. -/
theorem clear_resets_witness :
    (((⟨List.replicate 3 false, 3, 2⟩ : BasicBloomFilter).addAll [⟨5, 7⟩]).clear
        = ⟨List.replicate 3 false, 3, 2⟩ ∧
      ((⟨List.replicate 3 0, 3, 2⟩ : OrdinalBloomFilter).addAll [⟨5, 7⟩]).clear
        = ⟨List.replicate 3 0, 3, 2⟩) ∧
      (1 ≤ (⟨List.replicate 3 false, 3, 2⟩ : BasicBloomFilter)._hash_func_num →
        ∀ e, (((⟨List.replicate 3 false, 3, 2⟩ : BasicBloomFilter).addAll
          [⟨5, 7⟩]).clear).contains e = false) ∧
      (1 ≤ (⟨List.replicate 3 0, 3, 2⟩ : OrdinalBloomFilter)._hash_func_num →
        ∀ e, (((⟨List.replicate 3 0, 3, 2⟩ : OrdinalBloomFilter).addAll
          [⟨5, 7⟩]).clear).contains e = false) :=
  clear_resets (fun _ _ => (3, 2)) (fun _ _ => (3, 2)) (1 / 2) 10
    ⟨List.replicate 3 false, 3, 2⟩ ⟨List.replicate 3 0, 3, 2⟩
    (by unfold mkBasic; rw [if_neg (by norm_num)])
    (by unfold mkOrdinal; rw [if_neg (by norm_num)]) [⟨5, 7⟩] [⟨5, 7⟩]

/-- C6: construction rejects exactly the rates outside the open interval
(0, 1) with `InvalidParameter`, for both variants; no filter value exists in
the error case (the `Except.error` carries nothing), and rates strictly inside
(0, 1) never raise this error.  The model is pure, so "no side effects beyond
the error" is intrinsic. -/
theorem construction_rejects_invalid_rate (sb so : ℚ → Nat → Nat × Nat) (p : ℚ)
    (cap : Nat) :
    ((p ≤ 0 ∨ 1 ≤ p) →
        mkBasic sb p cap = .error .invalidParameter ∧
          mkOrdinal so p cap = .error .invalidParameter) ∧
      (0 < p → p < 1 →
        (∃ F, mkBasic sb p cap = .ok F) ∧ ∃ G, mkOrdinal so p cap = .ok G) := by
  constructor
  · intro hp
    constructor
    · unfold mkBasic
      rw [if_pos hp]
    · unfold mkOrdinal
      rw [if_pos hp]
  · intro h1 h2
    have hp : ¬(p ≤ 0 ∨ 1 ≤ p) := by
      push_neg
      exact ⟨h1, h2⟩
    constructor
    · exact ⟨_, by unfold mkBasic; rw [if_neg hp]⟩
    · exact ⟨_, by unfold mkOrdinal; rw [if_neg hp]⟩

/-- Witness for C6 at the rates named by the spec: 0, 1, -0.1 and 1.5 are
rejected, 0.5 is accepted. -/
theorem construction_rejects_invalid_rate_witness :
    mkBasic (fun _ _ => (3, 2)) 0 100 = .error .invalidParameter ∧
      mkBasic (fun _ _ => (3, 2)) 1 100 = .error .invalidParameter ∧
      mkBasic (fun _ _ => (3, 2)) (-1 / 10) 100 = .error .invalidParameter ∧
      mkOrdinal (fun _ _ => (3, 2)) (3 / 2) 100 = .error .invalidParameter ∧
      (∃ F, mkBasic (fun _ _ => (3, 2)) (1 / 2) 100 = .ok F) ∧
      ∃ G, mkOrdinal (fun _ _ => (3, 2)) (1 / 2) 100 = .ok G :=
  ⟨((construction_rejects_invalid_rate (fun _ _ => (3, 2)) (fun _ _ => (3, 2)) 0
      100).1 (Or.inl (by norm_num))).1,
   ((construction_rejects_invalid_rate (fun _ _ => (3, 2)) (fun _ _ => (3, 2)) 1
      100).1 (Or.inr (by norm_num))).1,
   ((construction_rejects_invalid_rate (fun _ _ => (3, 2)) (fun _ _ => (3, 2))
      (-1 / 10) 100).1 (Or.inl (by norm_num))).1,
   ((construction_rejects_invalid_rate (fun _ _ => (3, 2)) (fun _ _ => (3, 2))
      (3 / 2) 100).1 (Or.inr (by norm_num))).2,
   ((construction_rejects_invalid_rate (fun _ _ => (3, 2)) (fun _ _ => (3, 2))
      (1 / 2) 100).2 (by norm_num) (by norm_num)).1,
   ((construction_rejects_invalid_rate (fun _ _ => (3, 2)) (fun _ _ => (3, 2))
      (1 / 2) 100).2 (by norm_num) (by norm_num)).2⟩

/-- C7 as stated is false on the code.  The constructor guards only the rate,
so it accepts `capacity = 0` (here at rate 1/2): the sizing doubles then give
`_bit_array_size = ceil(-(0 * log(p)) / (ln 2)^2) = ceil(-0.0) = 0` and a NaN
round count (`0.0 / 0.0`) whose `uint64` cast is undefined behaviour — on
common targets a huge nonzero value, so the loops run.  With a zero-length
array, `hash_at_n`'s `% _bit_array_size` is a division by zero: in C++ the
first probe of `add` or `contains` fails, and no computed index can lie in
the empty range `[0, 0)`.  In the embedding, where `x % 0 = x`, the claimed
index bound is false at either variant's first probed round. -/
theorem hash_index_safety_cex :
    (∃ F, mkBasic (fun _ _ => (0, 1)) (1 / 2) 0 = .ok F) ∧
      (∃ G, mkOrdinal (fun _ _ => (0, 1)) (1 / 2) 0 = .ok G) ∧
      ¬((⟨[], 0, 1⟩ : BasicBloomFilter).hash_at_n ⟨5, 7⟩ 0
          < (⟨[], 0, 1⟩ : BasicBloomFilter)._bit_array_size) ∧
      ¬((⟨[], 0, 1⟩ : OrdinalBloomFilter).hash_at_n ⟨5, 7⟩ 1
          < (⟨[], 0, 1⟩ : OrdinalBloomFilter)._bit_array_size) :=
  ⟨⟨⟨[], 0, 1⟩, by unfold mkBasic; rw [if_neg (by norm_num)]; rfl⟩,
   ⟨⟨[], 0, 1⟩, by unfold mkOrdinal; rw [if_neg (by norm_num)]; rfl⟩,
   by decide, by decide⟩

/-- C7 amended: for every filter whose `_bit_array_size` is positive — which
construction guarantees whenever `capacity ≥ 1`, since the size is the `ceil`
of a strictly positive expression — every array index `add` and `contains`
compute is `hash_at_n`'s result, reduced modulo `_bit_array_size` and hence
in `[0, _bit_array_size)`; with in-range indices both operations never fail
(they are total in the embedding).  For `capacity = 0`, which the constructor
also accepts, the size is 0 and the modulo is a division by zero (see the
counterexample). -/
theorem hash_index_safety (F : BasicBloomFilter) (G : OrdinalBloomFilter)
    (hF : 1 ≤ F._bit_array_size) (hG : 1 ≤ G._bit_array_size) (e : Elem) (n : Nat) :
    F.hash_at_n e n < F._bit_array_size ∧ G.hash_at_n e n < G._bit_array_size :=
  ⟨BasicBloomFilter.hash_lt F e n hF, OrdinalBloomFilter.hash_lt_ord G e n hG⟩

/-- Witness for the amended C7 at concrete filters, element and round. -/
theorem hash_index_safety_witness :
    (⟨[false], 1, 1⟩ : BasicBloomFilter).hash_at_n ⟨7, 9⟩ 5 < 1 ∧
      (⟨[0], 1, 1⟩ : OrdinalBloomFilter).hash_at_n ⟨7, 9⟩ 5 < 1 :=
  hash_index_safety ⟨[false], 1, 1⟩ ⟨[0], 1, 1⟩ (by decide) (by decide) ⟨7, 9⟩ 5

/-- C9: move construction transfers the whole state — the destination is
exactly the source's previous array and scalars — and leaves the moved-from
filter with an empty vector and both scalars zero.  In this value semantics
the moved-from filter's array is the empty list, so nothing is shared with
the destination. -/
theorem move_transfers_and_zeroes_source :
    (∀ F : BasicBloomFilter,
        F.moveConstruct = (F, (⟨[], 0, 0⟩ : BasicBloomFilter))) ∧
      ∀ G : OrdinalBloomFilter,
        G.moveConstruct = (G, (⟨[], 0, 0⟩ : OrdinalBloomFilter)) :=
  ⟨fun _ => rfl, fun _ => rfl⟩

/-- C10: `swap` exchanges the two filters' arrays and scalars exactly, so a
second `swap` restores both originals. -/
theorem swap_exchanges_states :
    (∀ F G : BasicBloomFilter,
        F.swap G = (G, F) ∧ ((F.swap G).1).swap (F.swap G).2 = (F, G)) ∧
      ∀ F G : OrdinalBloomFilter,
        F.swap G = (G, F) ∧ ((F.swap G).1).swap (F.swap G).2 = (F, G) :=
  ⟨fun _ _ => ⟨rfl, rfl⟩, fun _ _ => ⟨rfl, rfl⟩⟩

end obf
